import Mathlib

/-
Shallow embedding of the `DraggableLetters` component from
`src/apps/docs/constants/TextComponent/draggableLettersRaw.ts`.

The component has two effects:
  * a layout pass (`useLayoutEffect`) that measures per-character widths,
    computes a horizontally centered run with fixed inter-glyph spacing and a
    vertical position controlled by the `verticalCenter` flag, and stores the
    resulting positions in component state;
  * a binding pass (`useEffect`) that calls `Draggable.create` on every
    rendered `.draggable-letter` element.  This effect returns no cleanup
    function, so previously created drag bindings are never released.

Pixel quantities are modelled as rationals (`ℚ`); DOM measurement results
(`offsetWidth`, possibly missing elements) are modelled as `List (Option ℚ)`.
-/

/-- One entry of the component's `letters` state: `type LetterData =
\x7b char: string; top: number; left: number \x7d`. -/
structure LetterData where
  char : Char
  top : ℚ
  left : ℚ
  deriving DecidableEq, Repr

instance : Inhabited LetterData := ⟨⟨' ', 0, 0⟩⟩

/-- `const widths = text.split("").map((_, i) => letterRefs.current[i]?.offsetWidth ?? 0)`:
one width per character of `text`, read from the measuring-layer refs, with a
missing ref (or a missing element) contributing `0`. -/
def measuredWidths (text : List Char) (refs : List (Option ℚ)) : List ℚ :=
  (List.range text.length).map fun i => (refs.getD i none).getD 0

/-- `const totalWidth = widths.reduce((sum, w) => sum + w, 0) + spacing * (text.length - 1)`. -/
def totalRunWidth (text : List Char) (refs : List (Option ℚ)) (spacing : ℚ) : ℚ :=
  (measuredWidths text refs).sum + spacing * ((text.length : ℚ) - 1)

/-- The `text.split("").forEach((char, i) => \x7b positions.push(...);
currentLeft += (widths[i] ?? 0) + spacing \x7d)` loop: each character is placed
at the running `currentLeft`, which then advances by its width plus `spacing`. -/
def placeLetters : List Char → List ℚ → ℚ → ℚ → ℚ → List LetterData
  | [], _, _, _, _ => []
  | c :: rest, widths, spacing, top, currentLeft =>
      { char := c, top := top, left := currentLeft } ::
        placeLetters rest widths.tail spacing top (currentLeft + widths.headD 0 + spacing)

/-- The body of the layout `useLayoutEffect` (after the mounted-guard):
computes `startX = (containerWidth - totalWidth) / 2`,
`top = verticalCenter ? height / 2 - 32 : 100`, and the positions list. -/
def runLayout (text : List Char) (refs : List (Option ℚ)) (spacing : ℚ)
    (verticalCenter : Bool) (containerWidth containerHeight : ℚ) : List LetterData :=
  let widths := measuredWidths text refs
  let startX := (containerWidth - totalRunWidth text refs spacing) / 2
  let top : ℚ := if verticalCenter then containerHeight / 2 - 32 else 100
  placeLetters text widths spacing top startX

/-- The full layout effect as a transformer of the `letters` state:
`if (!containerRef.current || letterRefs.current.length === 0) return;` keeps
the previous state (the container is modelled as mounted, its dimensions being
the `containerWidth`/`containerHeight` arguments); otherwise the state becomes
the freshly computed positions (`setLetters(positions)`). -/
def layoutEffect (prev : List LetterData) (text : List Char) (refs : List (Option ℚ))
    (spacing : ℚ) (verticalCenter : Bool) (containerWidth containerHeight : ℚ) :
    List LetterData :=
  if refs.length = 0 then prev
  else runLayout text refs spacing verticalCenter containerWidth containerHeight

/-- One run of the drag-binding `useEffect`, as a transformer of the per-element
count of live `Draggable` instances.  The effect queries the `numEls` rendered
`.draggable-letter` elements and calls `Draggable.create` on each, adding one
binding per element.  The source effect returns no cleanup function, so no
previously created binding is removed here — exactly as in the code. -/
def dragEffectRun (numEls : Nat) (active : List Nat) : List Nat :=
  (List.range numEls).map fun i => active.getD i 0 + 1

/-- Number of times a single physical press on element `i` invokes the
`onPress` callback: once per live `Draggable` instance on that element. -/
def pressInvocations (active : List Nat) (i : Nat) : Nat :=
  active.getD i 0

/-- Cumulative advance of `currentLeft` after placing `i` glyphs:
`advance ws s i = (ws[0]+s) + ... + (ws[i-1]+s)` with missing widths read as 0. -/
def advance : List ℚ → ℚ → Nat → ℚ
  | _, _, 0 => 0
  | widths, spacing, i + 1 => widths.headD 0 + spacing + advance widths.tail spacing i

theorem headD_eq_getD_zero (ws : List ℚ) : ws.headD 0 = ws.getD 0 0 := by
  cases ws <;> rfl

theorem advance_succ (spacing : ℚ) (widths : List ℚ) (i : Nat) :
    advance widths spacing (i + 1) =
      advance widths spacing i + (widths.getD i 0 + spacing) := by
  induction i generalizing widths with
  | zero =>
      cases widths <;> simp [advance]
  | succ n ih =>
      have hl : advance widths spacing (n + 1 + 1)
          = widths.headD 0 + spacing + advance widths.tail spacing (n + 1) := rfl
      have hr : advance widths spacing (n + 1)
          = widths.headD 0 + spacing + advance widths.tail spacing n := rfl
      have hg : widths.getD (n + 1) 0 = widths.tail.getD n 0 := by
        cases widths <;> rfl
      rw [hl, hr, ih widths.tail, hg]
      ring

theorem placeLetters_getElem? (spacing top : ℚ) (cs : List Char) :
    ∀ (ws : List ℚ) (x : ℚ) (i : Nat),
      (placeLetters cs ws spacing top x)[i]? =
        if i < cs.length then
          some ⟨cs.getD i ' ', top, x + advance ws spacing i⟩
        else none := by
  induction cs with
  | nil =>
      intro ws x i
      simp [placeLetters]
  | cons c rest ih =>
      intro ws x i
      cases i with
      | zero =>
          simp [placeLetters, advance]
      | succ n =>
          simp only [placeLetters, List.getElem?_cons_succ]
          rw [ih ws.tail (x + ws.headD 0 + spacing) n]
          by_cases h : n < rest.length
          · rw [if_pos h, List.length_cons, if_pos (by omega : n + 1 < rest.length + 1)]
            have hc : (c :: rest).getD (n + 1) ' ' = rest.getD n ' ' := rfl
            have ha : advance ws spacing (n + 1)
                = ws.headD 0 + spacing + advance ws.tail spacing n := rfl
            rw [hc, ha]
            simp only [Option.some.injEq, LetterData.mk.injEq]
            exact ⟨trivial, trivial, by ring⟩
          · rw [if_neg h, List.length_cons,
              if_neg (by omega : ¬ (n + 1 < rest.length + 1))]

theorem placeLetters_length (spacing top : ℚ) (cs : List Char) :
    ∀ (ws : List ℚ) (x : ℚ), (placeLetters cs ws spacing top x).length = cs.length := by
  induction cs with
  | nil => intro ws x; rfl
  | cons c rest ih => intro ws x; simp [placeLetters, ih]

theorem placeLetters_map_char (spacing top : ℚ) (cs : List Char) :
    ∀ (ws : List ℚ) (x : ℚ), (placeLetters cs ws spacing top x).map LetterData.char = cs := by
  induction cs with
  | nil => intro ws x; rfl
  | cons c rest ih => intro ws x; simp [placeLetters, ih]

theorem placeLetters_top (spacing top : ℚ) (cs : List Char) :
    ∀ (ws : List ℚ) (x : ℚ), ∀ p ∈ placeLetters cs ws spacing top x, p.top = top := by
  induction cs with
  | nil => intro ws x p hp; simp [placeLetters] at hp
  | cons c rest ih =>
      intro ws x p hp
      simp only [placeLetters, List.mem_cons] at hp
      rcases hp with h | h
      · rw [h]
      · exact ih _ _ p h

theorem runLayout_getElem? (text : List Char) (refs : List (Option ℚ)) (spacing : ℚ)
    (vc : Bool) (cw ch : ℚ) (i : Nat) :
    (runLayout text refs spacing vc cw ch)[i]? =
      if i < text.length then
        some ⟨text.getD i ' ', (if vc then ch / 2 - 32 else 100),
              (cw - totalRunWidth text refs spacing) / 2 +
                advance (measuredWidths text refs) spacing i⟩
      else none := by
  simp only [runLayout]
  rw [placeLetters_getElem?]

theorem runLayout_length (text : List Char) (refs : List (Option ℚ)) (spacing : ℚ)
    (vc : Bool) (cw ch : ℚ) :
    (runLayout text refs spacing vc cw ch).length = text.length := by
  simp [runLayout, placeLetters_length]

theorem measuredWidths_getD_nonneg (text : List Char) (refs : List (Option ℚ))
    (h : ∀ q : ℚ, some q ∈ refs → 0 ≤ q) (i : Nat) :
    0 ≤ (measuredWidths text refs).getD i 0 := by
  have hmem : ∀ w ∈ measuredWidths text refs, 0 ≤ w := by
    intro w hw
    simp only [measuredWidths, List.mem_map, List.mem_range] at hw
    obtain ⟨j, _, hwj⟩ := hw
    subst hwj
    rcases he : refs[j]? with _ | o
    · simp [List.getD_eq_getElem?_getD, he]
    · rcases o with _ | q
      · simp [List.getD_eq_getElem?_getD, he]
      · have hq : (0 : ℚ) ≤ q := h q (List.getElem?_mem he)
        simpa [List.getD_eq_getElem?_getD, he] using hq
  rw [List.getD_eq_getElem?_getD]
  rcases hm : (measuredWidths text refs)[i]? with _ | w
  · simp
  · simpa using hmem w (List.getElem?_mem hm)

theorem runLayout_getD (text : List Char) (refs : List (Option ℚ)) (spacing : ℚ)
    (vc : Bool) (cw ch : ℚ) (i : Nat) (hi : i < text.length) :
    (runLayout text refs spacing vc cw ch).getD i default =
      ⟨text.getD i ' ', (if vc then ch / 2 - 32 else 100),
       (cw - totalRunWidth text refs spacing) / 2 +
         advance (measuredWidths text refs) spacing i⟩ := by
  rw [List.getD_eq_getElem?_getD, runLayout_getElem?, if_pos hi]
  rfl

/-- C1: for every non-empty text and any sequence of measured widths, the
layout pass places the first glyph at
`left[0] = (containerWidth - totalRunWidth) / 2` exactly, where
`totalRunWidth` is the sum of the glyph widths plus `spacing * (count - 1)`
(the definition of `totalRunWidth`).  The refs hypothesis models the
measuring layer, which renders one element per character. -/
theorem C1_first_glyph_centered (text : List Char) (refs : List (Option ℚ))
    (spacing : ℚ) (vc : Bool) (cw ch : ℚ)
    (htext : text ≠ []) (hrefs : refs.length = text.length) :
    ((layoutEffect [] text refs spacing vc cw ch).getD 0 default).left =
      (cw - totalRunWidth text refs spacing) / 2 := by
  have h0 : 0 < text.length := List.length_pos.mpr htext
  have hlen : ¬ refs.length = 0 := by rw [hrefs]; omega
  simp only [layoutEffect, if_neg hlen]
  rw [runLayout_getD text refs spacing vc cw ch 0 h0]
  dsimp only
  simp [advance]

/-- C1 witness: the spec scenario, text `"AB"`, widths `[10, 20]`,
spacing `5`, container width `100`: `left[0] = (100 - 35) / 2 = 32.5`. -/
theorem C1_first_glyph_centered_witness :
    ((layoutEffect [] ['A', 'B'] [some 10, some 20] 5 true 100 80).getD 0 default).left =
        (100 - totalRunWidth ['A', 'B'] [some 10, some 20] 5) / 2
    ∧ (100 - totalRunWidth ['A', 'B'] [some 10, some 20] 5) / 2 = 65 / 2 :=
  ⟨C1_first_glyph_centered ['A', 'B'] [some 10, some 20] 5 true 100 80
      (by simp) (by simp),
    by norm_num [totalRunWidth, measuredWidths, List.range_succ]⟩

/-- C2: for adjacent glyphs `i` and `i+1` of the computed layout,
`left[i+1] - left[i] = spacing + width[i]` (so a zero-width glyph still
consumes one spacing gap when it is not last), and the glyph at index `i`
carries character `i` of the input, i.e. glyphs appear in input order. -/
theorem C2_adjacent_gap (text : List Char) (refs : List (Option ℚ)) (spacing : ℚ)
    (vc : Bool) (cw ch : ℚ) (i : Nat)
    (hi : i + 1 < (runLayout text refs spacing vc cw ch).length) :
    ((runLayout text refs spacing vc cw ch).getD (i + 1) default).left
        - ((runLayout text refs spacing vc cw ch).getD i default).left
      = spacing + (measuredWidths text refs).getD i 0
    ∧ ((runLayout text refs spacing vc cw ch).getD i default).char = text.getD i ' ' := by
  rw [runLayout_length] at hi
  rw [runLayout_getD text refs spacing vc cw ch (i + 1) hi,
      runLayout_getD text refs spacing vc cw ch i (by omega)]
  dsimp only
  refine ⟨?_, rfl⟩
  rw [advance_succ]
  ring

/-- C2 witness: spec scenario text `"AB"`, widths `[10, 20]`, spacing `5`:
`left[1] - left[0] = 5 + 10` and the glyph at index 0 is `'A'`. -/
theorem C2_adjacent_gap_witness :
    ((runLayout ['A', 'B'] [some 10, some 20] 5 true 100 80).getD 1 default).left
        - ((runLayout ['A', 'B'] [some 10, some 20] 5 true 100 80).getD 0 default).left
      = 5 + (measuredWidths ['A', 'B'] [some 10, some 20]).getD 0 0
    ∧ ((runLayout ['A', 'B'] [some 10, some 20] 5 true 100 80).getD 0 default).char
      = (['A', 'B'] : List Char).getD 0 ' ' :=
  C2_adjacent_gap ['A', 'B'] [some 10, some 20] 5 true 100 80 0
    (by rw [runLayout_length]; norm_num)

/-- C3 evaluation: the binding `useEffect` returns no cleanup function, so
on a rebind (e.g. mount followed by a `direction` change, with two glyph
elements) no previously created binding is released: after the second run
each element carries 2 live `Draggable` instances, and a single physical
press on element 0 invokes the `onPress` callback twice — contradicting the
claim that each glyph has at most one active binding and that each callback
fires at most once per gesture. -/
theorem C3_duplicate_bindings_after_rebind :
    dragEffectRun 2 (dragEffectRun 2 (List.replicate 2 0)) = [2, 2]
    ∧ pressInvocations (dragEffectRun 2 (dragEffectRun 2 (List.replicate 2 0))) 0 = 2 :=
  ⟨rfl, rfl⟩

/-- C4: for the empty input text the component produces zero glyph positions
(state stays `[]` whether or not the refs-length guard fires) and the binding
effect, seeing zero `.draggable-letter` elements, creates zero drag bindings;
both passes are total, so no error is raised. -/
theorem C4_empty_text_no_glyphs_no_bindings (refs : List (Option ℚ))
    (spacing : ℚ) (vc : Bool) (cw ch : ℚ) :
    layoutEffect [] [] refs spacing vc cw ch = []
    ∧ dragEffectRun (layoutEffect [] [] refs spacing vc cw ch).length [] = [] := by
  have h1 : layoutEffect [] [] refs spacing vc cw ch = [] := by
    by_cases h : refs.length = 0 <;> simp [layoutEffect, h, runLayout, placeLetters]
  exact ⟨h1, by rw [h1]; rfl⟩

/-- C5: the layout computation is deterministic and idempotent — re-running
the layout effect on the state it just produced, with identical inputs
(same text, spacing, vertical-centering flag, container size, measured
widths), leaves the position sequence unchanged. -/
theorem C5_layout_idempotent (prev : List LetterData) (text : List Char)
    (refs : List (Option ℚ)) (spacing : ℚ) (vc : Bool) (cw ch : ℚ) :
    layoutEffect (layoutEffect prev text refs spacing vc cw ch) text refs spacing vc cw ch
      = layoutEffect prev text refs spacing vc cw ch := by
  by_cases h : refs.length = 0 <;> simp [layoutEffect, h]

/-- C6: layouts computed with two different spacing values assign the same
character to each index in the same order — the character sequence of the
layout equals the input text for every spacing. -/
theorem C6_spacing_independent_chars (text : List Char) (refs : List (Option ℚ))
    (s1 s2 : ℚ) (vc : Bool) (cw ch : ℚ) :
    (runLayout text refs s1 vc cw ch).map LetterData.char
      = (runLayout text refs s2 vc cw ch).map LetterData.char
    ∧ (runLayout text refs s1 vc cw ch).map LetterData.char = text := by
  have h : ∀ s : ℚ, (runLayout text refs s vc cw ch).map LetterData.char = text := by
    intro s
    simp only [runLayout]
    exact placeLetters_map_char s _ text _ _
  exact ⟨(h s1).trans (h s2).symm, h s1⟩

/-- C7: every glyph of a run has the same vertical position, determined only
by the vertical-centering flag: `containerHeight / 2 - 32` (centering an
assumed 64px-tall glyph) when the flag is set, the fixed constant `100`
otherwise. -/
theorem C7_vertical_position (text : List Char) (refs : List (Option ℚ))
    (spacing : ℚ) (vc : Bool) (cw ch : ℚ) :
    ∀ p ∈ runLayout text refs spacing vc cw ch,
      p.top = if vc then ch / 2 - 32 else 100 := by
  intro p hp
  simp only [runLayout] at hp
  exact placeLetters_top spacing _ text _ _ p hp

/-- C7 witness: for text `"A"`, width `10`, container `100 × 80` with
vertical centering, the single glyph `⟨'A', 8, 45⟩` has top `80/2 - 32 = 8`. -/
theorem C7_vertical_position_witness :
    (⟨'A', 8, 45⟩ : LetterData).top = if true then (80 : ℚ) / 2 - 32 else 100 :=
  C7_vertical_position ['A'] [some 10] 12 true 100 80 ⟨'A', 8, 45⟩
    (by norm_num [runLayout, placeLetters, measuredWidths, totalRunWidth, List.range_succ])

/-- C8: when the total run width exceeds the container width, the starting
left offset `(containerWidth - totalRunWidth) / 2` is negative and is used
as the first glyph's left position without any clamping. -/
theorem C8_overflow_start_negative_unclamped (text : List Char) (refs : List (Option ℚ))
    (spacing : ℚ) (vc : Bool) (cw ch : ℚ)
    (htext : text ≠ []) (hover : cw < totalRunWidth text refs spacing) :
    ((runLayout text refs spacing vc cw ch).getD 0 default).left
        = (cw - totalRunWidth text refs spacing) / 2
    ∧ (cw - totalRunWidth text refs spacing) / 2 < 0 := by
  have h0 : 0 < text.length := List.length_pos.mpr htext
  rw [runLayout_getD text refs spacing vc cw ch 0 h0]
  dsimp only
  constructor
  · simp [advance]
  · apply div_neg_of_neg_of_pos
    · linarith
    · norm_num

/-- C8 witness: text `"AB"`, widths `[60, 60]`, spacing `5`, container
width `100`: total run width `125 > 100`, first left `= -25/2 < 0`. -/
theorem C8_overflow_witness :
    ((runLayout ['A', 'B'] [some 60, some 60] 5 true 100 80).getD 0 default).left
        = (100 - totalRunWidth ['A', 'B'] [some 60, some 60] 5) / 2
    ∧ (100 - totalRunWidth ['A', 'B'] [some 60, some 60] 5) / 2 < 0 :=
  C8_overflow_start_negative_unclamped ['A', 'B'] [some 60, some 60] 5 true 100 80
    (by simp) (by norm_num [totalRunWidth, measuredWidths, List.range_succ])

/-- C9: for every non-empty text (with the measuring layer providing one ref
per character), the number of computed glyph positions equals the number of
input characters. -/
theorem C9_glyph_count (text : List Char) (refs : List (Option ℚ)) (spacing : ℚ)
    (vc : Bool) (cw ch : ℚ) (htext : text ≠ []) (hrefs : refs.length = text.length) :
    (layoutEffect [] text refs spacing vc cw ch).length = text.length := by
  have h0 : 0 < text.length := List.length_pos.mpr htext
  have hlen : ¬ refs.length = 0 := by rw [hrefs]; omega
  simp [layoutEffect, hlen, runLayout_length]

/-- C9 witness: text `"AB"` yields exactly 2 glyph positions. -/
theorem C9_glyph_count_witness :
    (layoutEffect [] ['A', 'B'] [some 10, some 20] 5 true 100 80).length
      = (['A', 'B'] : List Char).length :=
  C9_glyph_count ['A', 'B'] [some 10, some 20] 5 true 100 80 (by simp) (by simp)

/-- C10 (implicit): with strictly positive spacing and non-negative measured
widths, the computed left positions are strictly increasing with index, so
glyphs never coincide or reverse order in the initial layout. -/
theorem C10_left_strictly_increasing (text : List Char) (refs : List (Option ℚ))
    (spacing : ℚ) (vc : Bool) (cw ch : ℚ) (i : Nat)
    (hs : 0 < spacing) (hw : ∀ q : ℚ, some q ∈ refs → 0 ≤ q)
    (hi : i + 1 < (runLayout text refs spacing vc cw ch).length) :
    ((runLayout text refs spacing vc cw ch).getD i default).left
      < ((runLayout text refs spacing vc cw ch).getD (i + 1) default).left := by
  rw [runLayout_length] at hi
  rw [runLayout_getD text refs spacing vc cw ch (i + 1) hi,
      runLayout_getD text refs spacing vc cw ch i (by omega)]
  dsimp only
  rw [advance_succ]
  have hwi := measuredWidths_getD_nonneg text refs hw i
  linarith

/-- C10 witness: text `"AB"`, widths `[10, 20]`, spacing `12`:
`left[0] < left[1]`. -/
theorem C10_left_strictly_increasing_witness :
    ((runLayout ['A', 'B'] [some 10, some 20] 12 true 100 80).getD 0 default).left
      < ((runLayout ['A', 'B'] [some 10, some 20] 12 true 100 80).getD 1 default).left :=
  C10_left_strictly_increasing ['A', 'B'] [some 10, some 20] 12 true 100 80 0
    (by norm_num)
    (by
      intro q hq
      simp only [List.mem_cons, List.not_mem_nil, or_false, Option.some.injEq] at hq
      rcases hq with h | h <;> rw [h] <;> norm_num)
    (by rw [runLayout_length]; norm_num)
